import Mathlib

/-
Shallow embedding of the dp-data repository (Deep Profiler data pipeline).

Python values are modelled by the inductive type `PyVal`; Python dicts are
association lists `List (String × PyVal)` with insertion-ordered iteration,
`del` modelled by key filtering and `update` by replace-or-append, which
matches CPython dict semantics on key-unique inputs.
-/

namespace DpData

/-- A Python value as used by this code base: integers, strings, float
literals (carried as uninterpreted text, no arithmetic is done on them),
lists, tuples and string-keyed dicts. -/
inductive PyVal where
  | int : Int → PyVal
  | str : String → PyVal
  | float : String → PyVal
  | list : List PyVal → PyVal
  | tuple : List PyVal → PyVal
  | dict : List (String × PyVal) → PyVal

/-- A Python dict with string keys, as an insertion-ordered association
list. -/
abbrev Dict := List (String × PyVal)

/-- Keys of a dict, in order. -/
def dictKeys (d : Dict) : List String := d.map Prod.fst

/-- `del d[k]`: remove the entry with key `k`. -/
def dictDel (d : Dict) (k : String) : Dict := d.filter (fun kv => kv.1 ≠ k)

/-- `d[k] = v` (one step of `d.update(...)`): replace the value in place when
the key is present, otherwise append the new entry. -/
def dictUpdate (d : Dict) (kv : String × PyVal) : Dict :=
  if d.any (fun p => p.1 == kv.1) then
    d.map (fun p => if p.1 == kv.1 then (p.1, kv.2) else p)
  else
    d ++ [kv]

/-- `isinstance(v, list) or isinstance(v, tuple)`. -/
def isSeq : PyVal → Bool
  | .list _ => true
  | .tuple _ => true
  | _ => false

/-- The elements of a list or tuple value. -/
def seqElems : PyVal → List PyVal
  | .list xs => xs
  | .tuple xs => xs
  | _ => []

/-- The generated name `k + '_' + str(i)` for element `i` of a
sequence-valued field `k` (`dpdata/__init__.py`, `expand_lists`). -/
def genName (k : String) (i : Nat) : String := k ++ "_" ++ toString i

/-- The generated entries for one sequence-valued field, starting at element
index `i`: `dict([(k + '_' + str(i), e) for i, e in enumerate(v)])`. -/
def expandEntry (k : String) (i : Nat) : List PyVal → Dict
  | [] => []
  | x :: xs => (genName k i, x) :: expandEntry k (i + 1) xs

/-- One iteration of the `expand_lists` loop body for the entry `kv`:
if the value is a list or tuple, delete the key from `newdict` and add the
generated entries (`newdict.update(d)`). -/
def expandStep (newdict : Dict) (kv : String × PyVal) : Dict :=
  if isSeq kv.2 then
    (expandEntry kv.1 0 (seqElems kv.2)).foldl dictUpdate (dictDel newdict kv.1)
  else
    newdict

/-- `dpdata.expand_lists`: copy the dict, then for every list- or
tuple-valued entry of the original dict delete that key and add one `name_i`
entry per element. -/
def expand_lists (data : Dict) : Dict :=
  data.foldl expandStep data

/-- All names generated by one pass of `expand_lists` over `m`, in
iteration order. -/
def genNames (m : Dict) : List String :=
  m.flatMap fun kv =>
    if isSeq kv.2 then (expandEntry kv.1 0 (seqElems kv.2)).map Prod.fst else []

/-- All entries generated by one pass of `expand_lists` over `m`, in
iteration order. -/
def genEntries (m : Dict) : Dict :=
  m.flatMap fun kv =>
    if isSeq kv.2 then expandEntry kv.1 0 (seqElems kv.2) else []

/-- The keys of the sequence-valued entries of `m`. -/
def seqKeys (m : Dict) : List String :=
  (m.filter fun kv => isSeq kv.2).map Prod.fst

/-- The entries of `m` that `expand_lists` passes through unchanged. -/
def keepEntries (m : Dict) : Dict :=
  m.filter fun kv => !isSeq kv.2

/-! ## `dpdata/zmq.py` — message encode/decode

`json.dumps` is modelled for the value shapes this code base serializes;
string escaping covers the quote and backslash characters (the inputs used
in the development contain no control characters). -/

/-- JSON string quoting: surround with double quotes, escaping `"` and
`\`. -/
def jsonQuote (s : String) : String :=
  "\"" ++ String.join (s.toList.map fun c =>
    if c == '"' then "\\\""
    else if c == '\\' then "\\\\"
    else String.singleton c) ++ "\""

mutual

/-- `json.dumps` with the default separators (`", "` and `": "`). -/
def json_dumps : PyVal → String
  | .int i => toString i
  | .str s => jsonQuote s
  | .float s => s
  | .list xs => "[" ++ String.intercalate ", " (jsonDumpsList xs) ++ "]"
  | .tuple xs => "[" ++ String.intercalate ", " (jsonDumpsList xs) ++ "]"
  | .dict kvs => "\x7b" ++ String.intercalate ", " (jsonDumpsPairs kvs) ++ "\x7d"

/-- Serialize the elements of a JSON array. -/
def jsonDumpsList : List PyVal → List String
  | [] => []
  | x :: xs => json_dumps x :: jsonDumpsList xs

/-- Serialize the members of a JSON object. -/
def jsonDumpsPairs : List (String × PyVal) → List String
  | [] => []
  | (k, v) :: kvs => (jsonQuote k ++ ": " ++ json_dumps v) :: jsonDumpsPairs kvs

end

/-- `command.upper()` for the ASCII command strings this code sends:
uppercase every character. -/
def pyUpper (s : String) : String := ⟨s.data.map Char.toUpper⟩

/-- `dpdata.zmq.send_message`: the two message parts put on the wire by
`sock.send_multipart([bytes(command.upper()), json.dumps(params)])`. -/
def send_message (command : String) (params : Dict) : List PyVal :=
  [PyVal.str (pyUpper command), PyVal.str (json_dumps (PyVal.dict params))]

/-- `dpdata.zmq.recv_message`: given the two received message parts (the
kind tag and the payload text), the function returns
`(mtype, json.dumps(contents))` — note `dumps`, not `loads`: the payload
text is re-serialized as a JSON value instead of being parsed. -/
def recv_message (mtype contents : PyVal) : PyVal × PyVal :=
  (mtype, PyVal.str (json_dumps contents))

/-! ## `dpdata/util/dp2sql.py` — sink writer

The database is modelled as an association of table name to row list; each
row is the expanded column dict.  Every sensor table carries a
`timestamp` column constrained unique (`dpdata/sql.py`, `make_table`), so
`conn.execute(ins, **data)` raises `IntegrityError` exactly when an
existing row of the table holds the same `timestamp` value; `insert_data`
catches it and writes `repr(e)` and
`'Skipping row @[{secs}, {usecs}]'` to stderr, modelled as appending
`(secs, usecs)` to the log. -/

/-- A database: table name → list of persisted rows. -/
abbrev DB := List (String × List Dict)

/-- Pipeline state: the database plus the stderr log of skipped rows,
each identified by its `(secs, usecs)` pair. -/
structure PState where
  db : DB
  log : List (Int × Int)

/-- A decoded `DATA` message: `msg['name']`, `msg['t'] = (secs, usecs)`
and `msg['data']`. -/
structure DataMsg where
  name : String
  secs : Int
  usecs : Int
  data : Dict

/-- `int(secs * 1000000) + usecs`: the canonical microsecond timestamp. -/
def timestampOf (m : DataMsg) : Int := m.secs * 1000000 + m.usecs

/-- Whether a persisted row's `timestamp` column holds the integer `ts`. -/
def hasTimestamp (r : Dict) (ts : Int) : Bool :=
  match List.lookup "timestamp" r with
  | some (PyVal.int x) => x == ts
  | _ => false

/-- Replace the row list of table `name`. -/
def tableSet (db : DB) (name : String) (rows : List Dict) : DB :=
  db.map fun p => if p.1 == name then (p.1, rows) else p

/-- The row `insert_data` builds for a message:
`data['timestamp'] = int(secs * 1000000) + usecs` followed by
`expand_lists(data)`. -/
def newRow (m : DataMsg) : Dict :=
  expand_lists (dictUpdate m.data ("timestamp", PyVal.int (timestampOf m)))

/-- `dpdata.util.dp2sql.insert_data`: `meta.tables.get(msg['name'])` is
`None` for an unprovisioned sensor, in which case the body is skipped
entirely (nothing is written and nothing is logged); otherwise the expanded
row is inserted, and a unique-`timestamp` violation is caught and logged. -/
def insert_data (m : DataMsg) (st : PState) : PState :=
  match List.lookup m.name st.db with
  | none => st
  | some rows =>
    if rows.any fun r => hasTimestamp r (timestampOf m) then
      { db := st.db, log := st.log ++ [(m.secs, m.usecs)] }
    else
      { db := tableSet st.db m.name (rows ++ [newRow m]), log := st.log }

/-- A decoded `EVENT` message: `msg['name']`, `msg['t'] = (secs, usecs)`
and `msg['attrs']` with its `pnum` and `mode` entries. -/
structure EventMsg where
  name : String
  secs : Int
  usecs : Int
  pnum : Int
  mode : PyVal

/-- A row of the `profiles` table (columns `start`, `end`, `pnum`, `mode`;
`none` models SQL NULL, i.e. a column the insert left unset). -/
structure ProfileRow where
  start : Option Int
  end_ : Option Int
  pnum : Option Int
  mode : Option PyVal

/-- `dpdata.util.dp2sql.insert_event`, for executions in which no write
raises.  For `profile:start` a row with `start`, `pnum` and `mode` is
inserted.  For `profile:end` the code runs
`tbl.update().where(tbl.c.pnum == attrs['pnum'])` with `end=secs` inside
`try: ... except IntegrityError:`.  An UPDATE that matches zero rows
completes without raising, and an UPDATE of the `end` column cannot violate
the table's only constraint (uniqueness of `pnum`, which it does not
touch), so the `except IntegrityError` branch — which would insert a row
with only `pnum` and `end` — is unreachable: the UPDATE is modelled
directly, setting `end` on every row whose `pnum` matches (possibly none).
A `None` table (no `profiles` table reflected) skips the body. -/
def insert_event (m : EventMsg) (profiles : Option (List ProfileRow)) :
    Option (List ProfileRow) :=
  match profiles with
  | none => none
  | some rows =>
    if m.name == "profile:start" then
      some (rows ++ [⟨some m.secs, none, some m.pnum, some m.mode⟩])
    else if m.name == "profile:end" then
      some (rows.map fun r =>
        if r.pnum == some m.pnum then
          { start := r.start, end_ := some m.secs, pnum := r.pnum, mode := r.mode }
        else r)
    else
      some rows

/-! ## `dpdata/sql.py` — schema builder (`make_table`)

The loop body of `make_table` assigns the local variable `precision` in
two of its three branches: when the descriptor has a `'precision'` entry,
and when it has neither `'precision'` nor `tostr == str`.  In the branch
for a descriptor with `tostr == str` and no `'precision'`, the variable is
left as it was — unbound (a `NameError` when first read) if no earlier
descriptor assigned it.  The model threads that local as an
`Option String` in the fold state, `none` meaning unbound, and raising
`nameError` when a metadata row would read it. -/

/-- A variable descriptor from the data dictionary.  `tostr` records
whether `desc.get('tostr') == str` holds; `nvals`, `units` and `scale`
are `none` when the corresponding key is absent. -/
structure VarDesc where
  name : String
  precision : Option String
  tostr : Bool
  nvals : Option Nat
  units : Option String
  scale : Option PyVal

/-- An SQLAlchemy column type used by `make_table`. -/
inductive ColType where
  | integer
  | float
  | text
deriving DecidableEq

/-- A row appended to the `metadata` list:
`(sensor, colname, units, precision, scale)`. -/
structure MetaRow where
  sensor : String
  varname : String
  units : String
  precision : String
  scale : PyVal

/-- The running state of the `make_table` loop: the column list, the
metadata list, and the loop-local `precision` variable (`none` =
not yet assigned). -/
structure MkState where
  cols : List (String × ColType)
  metadata : List MetaRow
  prec : Option String

/-- Failures of `make_table`: the sensor missing from the data dictionary
(`raise KeyError`) and reading the unassigned `precision` local
(`NameError`). -/
inductive MkErr where
  | keyError
  | nameError
deriving DecidableEq

/-- The column type chosen for a descriptor: `Integer` when
`precision == '1'`, `Float` for any other explicit precision, `Text` when
`tostr == str` is configured without a precision, `Integer` otherwise. -/
def descCType (d : VarDesc) : ColType :=
  match d.precision with
  | some p => if p == "1" then .integer else .float
  | none => if d.tostr then .text else .integer

/-- The value of the `precision` local after processing descriptor `d`,
given its value before: assigned from the descriptor, left untouched in the
`tostr` branch, defaulted to `'1'` otherwise. -/
def descPrecAfter (d : VarDesc) (prec : Option String) : Option String :=
  match d.precision with
  | some p => some p
  | none => if d.tostr then prec else some "1"

/-- The physical column names a descriptor produces: its own name when
`nvals == 1`, otherwise `name_0 .. name_{nvals-1}`. -/
def descColNames (d : VarDesc) : List String :=
  let nvals := d.nvals.getD 1
  if nvals == 1 then [d.name] else (List.range nvals).map (genName d.name)

/-- One iteration of the `make_table` loop over `cfg['data']`. -/
def processDesc (sensor : String) (st : MkState) (d : VarDesc) :
    Except MkErr MkState :=
  let prec' := descPrecAfter d st.prec
  let ctype := descCType d
  let units := d.units.getD ""
  let scale := d.scale.getD (PyVal.float "1.0")
  let names := descColNames d
  if names.isEmpty then
    pure { cols := st.cols, metadata := st.metadata, prec := prec' }
  else
    match prec' with
    | none => .error .nameError
    | some p =>
      pure { cols := st.cols ++ names.map fun n => (n, ctype),
             metadata :=
               st.metadata ++ names.map fun n =>
                 { sensor := sensor, varname := n, units := units,
                   precision := p, scale := scale },
             prec := some p }

/-- `dpdata.sql.make_table`, restricted to its pure content: the column
list (including the leading unique `timestamp` column) and the metadata
rows it emits.  `KeyError` when the sensor is absent from the data
dictionary; `NameError` when a metadata row reads the never-assigned
`precision` local.  On error the table is never created (the exception
propagates before `Table(...)` / `create_all`). -/
def make_table (sensor : String) (data_dict : List (String × List VarDesc)) :
    Except MkErr (List (String × ColType) × List MetaRow) :=
  match List.lookup sensor data_dict with
  | none => .error .keyError
  | some descs =>
    match descs.foldlM (processDesc sensor)
        { cols := [("timestamp", ColType.integer)], metadata := [], prec := none } with
    | .error e => .error e
    | .ok st => .ok (st.cols, st.metadata)

/-- A data dictionary is well formed when every descriptor either carries
an explicit `precision` or does not configure `tostr`, so the `precision`
local is freshly assigned on every iteration. -/
def descWF (d : VarDesc) : Bool :=
  d.precision.isSome || !d.tostr

/-- The per-descriptor precision recorded in metadata when the descriptor
is well formed: its own `precision`, else the default `'1'`. -/
def descPrec (d : VarDesc) : String := d.precision.getD "1"

/-- The columns a well-formed descriptor contributes. -/
def descCols (d : VarDesc) : List (String × ColType) :=
  (descColNames d).map fun n => (n, descCType d)

/-- The metadata rows a well-formed descriptor contributes. -/
def descMeta (sensor : String) (d : VarDesc) : List MetaRow :=
  (descColNames d).map fun n =>
    { sensor := sensor, varname := n, units := d.units.getD "",
      precision := descPrec d, scale := d.scale.getD (PyVal.float "1.0") }

/-- All physical column names of a descriptor list. -/
def allColNames (descs : List VarDesc) : List String :=
  descs.flatMap descColNames


/-- Project an optional Python value to its integer content (0 when it is
not an integer); used to separate concrete computation results. -/
def pyOptInt : Option PyVal → Int
  | some (PyVal.int n) => n
  | _ => 0

/-! ## Properties of `expand_lists` -/

/-- If every entry of the iteration list is non-sequence-valued, the loop
never fires and the accumulator is returned unchanged. -/
theorem foldl_expandStep_flat :
    ∀ (l : List (String × PyVal)) (acc : Dict),
      (∀ kv ∈ l, isSeq kv.2 = false) → l.foldl expandStep acc = acc
  | [], _, _ => rfl
  | kv :: l, acc, h => by
      have hkv : isSeq kv.2 = false := h kv (List.mem_cons_self ..)
      have hstep : expandStep acc kv = acc := by simp [expandStep, hkv]
      rw [List.foldl_cons, hstep]
      exact foldl_expandStep_flat l acc fun x hx => h x (List.mem_cons_of_mem _ hx)

/-- Any entry of `dictUpdate d e` either carries the updated value or was
already in `d`. -/
theorem mem_dictUpdate {d : Dict} {e p : String × PyVal}
    (hp : p ∈ dictUpdate d e) : p.2 = e.2 ∨ p ∈ d := by
  unfold dictUpdate at hp
  split at hp
  · rcases List.mem_map.mp hp with ⟨q, hq, hval⟩
    by_cases hc : (q.1 == e.1) = true
    · rw [if_pos hc] at hval
      left; rw [← hval]
    · rw [if_neg hc] at hval
      right; rwa [← hval]
  · rcases List.mem_append.mp hp with h | h
    · right; exact h
    · left; rw [List.mem_singleton.mp h]

/-- Any entry surviving a fold of `dictUpdate`s either carries one of the
new values or was already in the initial dict. -/
theorem mem_foldl_dictUpdate :
    ∀ (es : List (String × PyVal)) (d : Dict) (p : String × PyVal),
      p ∈ es.foldl dictUpdate d → p.2 ∈ es.map Prod.snd ∨ p ∈ d
  | [], _, _, hp => Or.inr hp
  | e :: es, d, p, hp => by
      rcases mem_foldl_dictUpdate es (dictUpdate d e) p hp with h | h
      · left; exact List.mem_cons_of_mem _ h
      · rcases mem_dictUpdate h with h2 | h2
        · left; rw [List.map_cons, h2]; exact List.mem_cons_self ..
        · right; exact h2

/-- The values of the generated entries are exactly the sequence
elements. -/
theorem map_snd_expandEntry (k : String) :
    ∀ (i : Nat) (xs : List PyVal), (expandEntry k i xs).map Prod.snd = xs
  | _, [] => rfl
  | i, x :: xs => by
      rw [expandEntry, List.map_cons, map_snd_expandEntry k (i + 1) xs]

/-- Invariant of the `expand_lists` loop: if every sequence element seen by
the remaining iterations is itself a non-sequence, and every
sequence-valued entry still in the accumulator shares its key with a
sequence-valued entry of the remaining iteration list, then the final
accumulator holds no sequence value. -/
theorem foldl_expandStep_no_seq :
    ∀ (l : List (String × PyVal)) (acc : Dict),
      (∀ kv ∈ l, ∀ e ∈ seqElems kv.2, isSeq e = false) →
      (∀ p ∈ acc, isSeq p.2 = true → ∃ q ∈ l, q.1 = p.1 ∧ isSeq q.2 = true) →
      ∀ p ∈ l.foldl expandStep acc, isSeq p.2 = false
  | [], _, _, hinv, p, hp => by
      cases hseq : isSeq p.2
      · rfl
      · rcases hinv p hp hseq with ⟨q, hq, -⟩
        exact absurd hq (List.not_mem_nil q)
  | kv :: l, acc, helems, hinv, p, hp => by
      rw [List.foldl_cons] at hp
      cases hkv : isSeq kv.2
      · have hstep : expandStep acc kv = acc := by simp [expandStep, hkv]
        rw [hstep] at hp
        refine foldl_expandStep_no_seq l acc
          (fun x hx => helems x (List.mem_cons_of_mem _ hx)) ?_ p hp
        intro r hr hrseq
        rcases hinv r hr hrseq with ⟨q, hq, hq1, hq2⟩
        rcases List.mem_cons.mp hq with rfl | hq'
        · rw [hkv] at hq2; exact absurd hq2 (by simp)
        · exact ⟨q, hq', hq1, hq2⟩
      · have hstep : expandStep acc kv
            = (expandEntry kv.1 0 (seqElems kv.2)).foldl dictUpdate
                (dictDel acc kv.1) := by
          simp [expandStep, hkv]
        rw [hstep] at hp
        refine foldl_expandStep_no_seq l _
          (fun x hx => helems x (List.mem_cons_of_mem _ hx)) ?_ p hp
        intro r hr hrseq
        rcases mem_foldl_dictUpdate _ _ r hr with hval | hrd
        · rw [map_snd_expandEntry] at hval
          have := helems kv (List.mem_cons_self ..) r.2 hval
          rw [hrseq] at this
          exact absurd this (by simp)
        · have hmem := List.mem_filter.mp hrd
          have hne : ¬(r.1 = kv.1) := by simpa using hmem.2
          rcases hinv r hmem.1 hrseq with ⟨q, hq, hq1, hq2⟩
          rcases List.mem_cons.mp hq with rfl | hq'
          · exact absurd hq1.symm hne
          · exact ⟨q, hq', hq1, hq2⟩

/-- After one pass of `expand_lists` over a dict whose sequence elements
are all non-sequences, no value is a sequence. -/
theorem expand_lists_no_seq_values (m : Dict)
    (h : ∀ kv ∈ m, ∀ e ∈ seqElems kv.2, isSeq e = false) :
    ∀ kv ∈ expand_lists m, isSeq kv.2 = false :=
  fun kv hkv =>
    foldl_expandStep_no_seq m m h (fun p hp hps => ⟨p, hp, rfl, hps⟩) kv hkv

/-- Bridge from the boolean hypothesis form. -/
theorem all_elems_flat (m : Dict)
    (h : m.all (fun kv => (seqElems kv.2).all fun e => !isSeq e) = true) :
    ∀ kv ∈ m, ∀ e ∈ seqElems kv.2, isSeq e = false := by
  rw [List.all_eq_true] at h
  intro q hq e he
  have := List.all_eq_true.mp (h q hq) e he
  simpa using this

/-- C3 counterexample: on the input `{a: [[1]]}` — a mapping whose
sequence-valued field contains a nested sequence — the result of
`expand_lists` has a sequence value (`a_0` maps to the list `[1]`),
so the claim fails as stated. -/
theorem expand_lists_nested_cex :
    (expand_lists [("a", PyVal.list [PyVal.list [PyVal.int 1]])]).any
      (fun kv => isSeq kv.2) = true := rfl

/-- C3 (amended): for every input field mapping whose sequence-valued
fields contain only non-sequence elements, no value of the mapping
returned by `expand_lists` is itself a sequence (list or tuple). -/
theorem expand_lists_values_flat (m : Dict)
    (h : m.all (fun kv => (seqElems kv.2).all fun e => !isSeq e) = true) :
    (expand_lists m).all (fun kv => !isSeq kv.2) = true := by
  rw [List.all_eq_true]
  intro kv hkv
  have := expand_lists_no_seq_values m (all_elems_flat m h) kv hkv
  simpa using this

theorem expand_lists_values_flat_witness :
    (expand_lists [("a", PyVal.list [PyVal.int 1, PyVal.int 2]),
                   ("b", PyVal.int 5)]).all (fun kv => !isSeq kv.2) = true :=
  expand_lists_values_flat _ (by rfl)

/-- C4 counterexample: on `{a: [[1]]}` a second expansion pass rewrites
`a_0` (now sequence-valued) into `a_0_0`, so `expand_lists` is not
idempotent as claimed: the key sets of the two sides differ. -/
theorem expand_lists_idem_cex :
    expand_lists (expand_lists [("a", PyVal.list [PyVal.list [PyVal.int 1]])])
      ≠ expand_lists [("a", PyVal.list [PyVal.list [PyVal.int 1]])] :=
  fun h => absurd (congrArg dictKeys h) (by decide)

/-- C4 (amended): for every field mapping whose sequence-valued fields
contain only non-sequence elements,
`expand_lists (expand_lists m) = expand_lists m`. -/
theorem expand_lists_idem (m : Dict)
    (h : m.all (fun kv => (seqElems kv.2).all fun e => !isSeq e) = true) :
    expand_lists (expand_lists m) = expand_lists m :=
  foldl_expandStep_flat (expand_lists m) (expand_lists m)
    (expand_lists_no_seq_values m (all_elems_flat m h))

theorem expand_lists_idem_witness :
    expand_lists (expand_lists [("a", PyVal.list [PyVal.int 1, PyVal.int 2]),
                                ("b", PyVal.int 5)])
      = expand_lists [("a", PyVal.list [PyVal.int 1, PyVal.int 2]),
                      ("b", PyVal.int 5)] :=
  expand_lists_idem _ (by rfl)

/-- C9: for every field mapping in which no value is a sequence,
`expand_lists m = m`. -/
theorem expand_lists_flat_id (m : Dict)
    (h : m.all (fun kv => !isSeq kv.2) = true) : expand_lists m = m := by
  refine foldl_expandStep_flat m m fun kv hkv => ?_
  have := List.all_eq_true.mp h kv hkv
  simpa using this

theorem expand_lists_flat_id_witness :
    expand_lists [("a", PyVal.int 1), ("b", PyVal.str "x")]
      = [("a", PyVal.int 1), ("b", PyVal.str "x")] :=
  expand_lists_flat_id _ (by rfl)

/-! ## Structural description of one `expand_lists` pass -/

theorem keys_append (l₁ l₂ : Dict) :
    dictKeys (l₁ ++ l₂) = dictKeys l₁ ++ dictKeys l₂ := List.map_append ..

theorem mem_keys_of_mem {p : String × PyVal} {l : Dict} (h : p ∈ l) :
    p.1 ∈ dictKeys l := List.mem_map_of_mem _ h

theorem exists_of_mem_keys {k : String} {l : Dict} (h : k ∈ dictKeys l) :
    ∃ p ∈ l, p.1 = k := by
  rcases List.mem_map.mp h with ⟨p, hp, hk⟩
  exact ⟨p, hp, hk⟩

/-- Looking a key up past a block that does not contain it. -/
theorem lookup_skip :
    ∀ (l₁ l₂ : Dict) (k : String), (∀ p ∈ l₁, p.1 ≠ k) →
      List.lookup k (l₁ ++ l₂) = List.lookup k l₂
  | [], _, _, _ => rfl
  | (k', v) :: l₁, l₂, k, h => by
      have hne : (k == k') = false :=
        beq_eq_false_iff_ne.mpr (Ne.symm (h (k', v) (List.mem_cons_self ..)))
      simp only [List.cons_append, List.lookup_cons, hne]
      exact lookup_skip l₁ l₂ k fun p hp => h p (List.mem_cons_of_mem _ hp)

/-- Looking up a key that no entry carries. -/
theorem lookup_none (l : Dict) (k : String) (h : ∀ p ∈ l, p.1 ≠ k) :
    List.lookup k l = none := by
  have := lookup_skip l [] k h
  rwa [List.append_nil] at this

/-- A key found in the left part of an append. -/
theorem lookup_append_some :
    ∀ (l₁ l₂ : Dict) (k : String) (v : PyVal), List.lookup k l₁ = some v →
      List.lookup k (l₁ ++ l₂) = some v
  | [], _, _, _, h => by simp at h
  | (k', v') :: l₁, l₂, k, v, h => by
      by_cases hc : (k == k') = true
      · simp only [List.lookup_cons, hc] at h
        simp only [List.cons_append, List.lookup_cons, hc]
        exact h
      · have hc' : (k == k') = false := Bool.eq_false_iff.mpr hc
        simp only [List.lookup_cons, hc'] at h
        simp only [List.cons_append, List.lookup_cons, hc']
        exact lookup_append_some l₁ l₂ k v h

/-- Lookup of a member of a key-unique dict. -/
theorem lookup_found :
    ∀ (l : Dict) (k : String) (v : PyVal), (dictKeys l).Nodup → (k, v) ∈ l →
      List.lookup k l = some v
  | [], _, _, _, hm => absurd hm (List.not_mem_nil _)
  | (k', v') :: l, k, v, hnd, hm => by
      have hnd' : (k' :: dictKeys l).Nodup := hnd
      rcases List.mem_cons.mp hm with he | hm'
      · have h1 : k = k' := congrArg Prod.fst he
        have h2 : v = v' := congrArg Prod.snd he
        subst h1; subst h2
        simp [List.lookup_cons]
      · have hkl : k ∈ dictKeys l := mem_keys_of_mem hm'
        have hne : k ≠ k' := fun he => (List.nodup_cons.mp hnd').1 (he ▸ hkl)
        have hne' : (k == k') = false := beq_eq_false_iff_ne.mpr hne
        simp only [List.lookup_cons, hne']
        exact lookup_found l k v (List.nodup_cons.mp hnd').2 hm'

/-- Two entries of a key-unique dict with the same key are equal. -/
theorem eq_of_mem_nodup_keys :
    ∀ {l : Dict}, (dictKeys l).Nodup →
      ∀ {p q : String × PyVal}, p ∈ l → q ∈ l → p.1 = q.1 → p = q := by
  intro l
  induction l with
  | nil => exact fun _ {p q} hp _ _ => absurd hp (List.not_mem_nil p)
  | cons x l ih =>
      intro hnd p q hp hq hpq
      have hnd' : (x.1 :: dictKeys l).Nodup := hnd
      have hx : x.1 ∉ dictKeys l := (List.nodup_cons.mp hnd').1
      have htl : (dictKeys l).Nodup := (List.nodup_cons.mp hnd').2
      rcases List.mem_cons.mp hp with h1 | hp' <;>
        rcases List.mem_cons.mp hq with h2 | hq'
      · rw [h1, h2]
      · rw [h1] at hpq
        exact absurd (by rw [hpq]; exact mem_keys_of_mem hq') hx
      · rw [h2] at hpq
        exact absurd (by rw [← hpq]; exact mem_keys_of_mem hp') hx
      · exact ih htl hp' hq' hpq

/-- `dictDel` can only shrink the key set. -/
theorem keys_dictDel_subset (d : Dict) (k : String) :
    dictKeys (dictDel d k) ⊆ dictKeys d :=
  List.map_subset _ (List.filter_subset' _)

/-- Folding `dictUpdate` over entries with fresh, pairwise-distinct keys
appends them. -/
theorem foldl_dictUpdate_fresh :
    ∀ (es : List (String × PyVal)) (d : Dict),
      (∀ p ∈ es, p.1 ∉ dictKeys d) → (es.map Prod.fst).Nodup →
      es.foldl dictUpdate d = d ++ es
  | [], d, _, _ => (List.append_nil d).symm
  | e :: es, d, hfresh, hnd => by
      have he : e.1 ∉ dictKeys d := hfresh e (List.mem_cons_self ..)
      have hupd : dictUpdate d e = d ++ [e] := by
        rw [dictUpdate, if_neg]
        intro hany
        rcases List.any_eq_true.mp hany with ⟨q, hq, hbe⟩
        exact he (by rw [← beq_iff_eq.mp hbe]; exact mem_keys_of_mem hq)
      have hnd' : (e.1 :: es.map Prod.fst).Nodup := hnd
      rw [List.foldl_cons, hupd,
        foldl_dictUpdate_fresh es (d ++ [e]) ?_ (List.nodup_cons.mp hnd').2,
        List.append_assoc, List.singleton_append]
      intro p hp hmem
      rw [keys_append] at hmem
      rcases List.mem_append.mp hmem with h | h
      · exact hfresh p (List.mem_cons_of_mem _ hp) h
      · have : p.1 = e.1 := by simpa [dictKeys] using h
        exact (List.nodup_cons.mp hnd').1 (this ▸ List.mem_map_of_mem _ hp)

theorem genNames_cons_seq {kv : String × PyVal} (l : Dict)
    (h : isSeq kv.2 = true) :
    genNames (kv :: l)
      = (expandEntry kv.1 0 (seqElems kv.2)).map Prod.fst ++ genNames l := by
  rw [genNames, List.flatMap_cons, if_pos h]; rfl

theorem genNames_cons_nonseq {kv : String × PyVal} (l : Dict)
    (h : isSeq kv.2 = false) : genNames (kv :: l) = genNames l := by
  rw [genNames, List.flatMap_cons, if_neg (by rw [h]; exact Bool.false_ne_true)]
  rfl

theorem genEntries_cons_seq {kv : String × PyVal} (l : Dict)
    (h : isSeq kv.2 = true) :
    genEntries (kv :: l) = expandEntry kv.1 0 (seqElems kv.2) ++ genEntries l := by
  rw [genEntries, List.flatMap_cons, if_pos h]; rfl

theorem genEntries_cons_nonseq {kv : String × PyVal} (l : Dict)
    (h : isSeq kv.2 = false) : genEntries (kv :: l) = genEntries l := by
  rw [genEntries, List.flatMap_cons, if_neg (by rw [h]; exact Bool.false_ne_true)]
  rfl

theorem seqKeys_cons_seq {kv : String × PyVal} (l : Dict)
    (h : isSeq kv.2 = true) : seqKeys (kv :: l) = kv.1 :: seqKeys l := by
  rw [seqKeys, List.filter_cons, if_pos h]; rfl

theorem seqKeys_cons_nonseq {kv : String × PyVal} (l : Dict)
    (h : isSeq kv.2 = false) : seqKeys (kv :: l) = seqKeys l := by
  rw [seqKeys, List.filter_cons, if_neg (by rw [h]; exact Bool.false_ne_true)]
  rfl

/-- The sequence-valued keys are keys. -/
theorem seqKeys_subset_keys (l : Dict) : seqKeys l ⊆ dictKeys l :=
  List.map_subset _ (List.filter_subset' _)

/-- The keys of the generated entries are the generated names. -/
theorem keys_genEntries (m : Dict) : dictKeys (genEntries m) = genNames m := by
  rw [dictKeys, genEntries, genNames, List.map_flatMap]
  congr 1
  funext kv
  by_cases h : isSeq kv.2 <;> simp [h]

/-- Structural description of the `expand_lists` loop: when the generated
names are pairwise distinct and do not occur among the accumulator's keys,
the loop removes the sequence-valued keys of the iteration list from the
accumulator and appends all generated entries, in iteration order. -/
theorem foldl_expandStep_struct :
    ∀ (rest : List (String × PyVal)) (acc : Dict),
      (∀ kv ∈ rest, kv.1 ∈ dictKeys acc) →
      (dictKeys rest).Nodup →
      (∀ n ∈ genNames rest, n ∉ dictKeys acc) →
      (genNames rest).Nodup →
      rest.foldl expandStep acc
        = acc.filter (fun p => !List.elem p.1 (seqKeys rest)) ++ genEntries rest
  | [], acc, _, _, _, _ => by
      have h1 : acc.filter (fun p => !List.elem p.1 (seqKeys [])) = acc :=
        List.filter_eq_self.mpr fun p _ => rfl
      rw [List.foldl_nil, h1, genEntries, List.flatMap_nil, List.append_nil]
  | kv :: rest, acc, hsub, hkeys, hfresh, hnd => by
      rw [List.foldl_cons]
      have hkeyscons : (kv.1 :: dictKeys rest).Nodup := hkeys
      have hk1 : kv.1 ∉ dictKeys rest := (List.nodup_cons.mp hkeyscons).1
      have hkeys' : (dictKeys rest).Nodup := (List.nodup_cons.mp hkeyscons).2
      have hsubt : ∀ x ∈ rest, x.1 ∈ dictKeys acc :=
        fun x hx => hsub x (List.mem_cons_of_mem _ hx)
      cases hkv : isSeq kv.2
      case false =>
        have hstep : expandStep acc kv = acc := by simp [expandStep, hkv]
        rw [hstep]
        have hgn := genNames_cons_nonseq rest hkv
        have IH := foldl_expandStep_struct rest acc hsubt hkeys'
          (fun n hn => hfresh n (by rw [hgn]; exact hn)) (by rw [← hgn]; exact hnd)
        rw [IH, seqKeys_cons_nonseq rest hkv, genEntries_cons_nonseq rest hkv]
      case true =>
        have hgn := genNames_cons_seq rest hkv
        have hge := genEntries_cons_seq rest hkv
        have hsk := seqKeys_cons_seq rest hkv
        have hndall : ((expandEntry kv.1 0 (seqElems kv.2)).map Prod.fst
            ++ genNames rest).Nodup := by rw [← hgn]; exact hnd
        have hnd1 : ((expandEntry kv.1 0 (seqElems kv.2)).map Prod.fst).Nodup :=
          hndall.of_append_left
        have hnd2 : (genNames rest).Nodup := hndall.of_append_right
        have hdisj : ∀ n ∈ genNames rest,
            n ∉ (expandEntry kv.1 0 (seqElems kv.2)).map Prod.fst := by
          intro n hn hn2
          exact (List.nodup_append.mp hndall).2.2 hn2 hn
        have hfreshall : ∀ n, (n ∈ (expandEntry kv.1 0 (seqElems kv.2)).map Prod.fst
            ∨ n ∈ genNames rest) → n ∉ dictKeys acc := by
          intro n hn
          exact hfresh n (by rw [hgn]; exact List.mem_append.mpr hn)
        have hstep : expandStep acc kv
            = dictDel acc kv.1 ++ expandEntry kv.1 0 (seqElems kv.2) := by
          rw [expandStep, if_pos hkv]
          exact foldl_dictUpdate_fresh _ (dictDel acc kv.1)
            (fun p hp hmem => hfreshall p.1 (Or.inl (List.mem_map_of_mem _ hp))
              (keys_dictDel_subset acc kv.1 hmem)) hnd1
        rw [hstep]
        have hsub' : ∀ x ∈ rest,
            x.1 ∈ dictKeys (dictDel acc kv.1 ++ expandEntry kv.1 0 (seqElems kv.2)) := by
          intro x hx
          have hxk : x.1 ∈ dictKeys acc := hsubt x hx
          have hxne : x.1 ≠ kv.1 :=
            fun he => hk1 (he ▸ mem_keys_of_mem hx)
          rcases exists_of_mem_keys hxk with ⟨p, hp, hpk⟩
          have hpdel : p ∈ dictDel acc kv.1 :=
            List.mem_filter.mpr ⟨hp, by simpa using hpk ▸ hxne⟩
          rw [keys_append]
          exact List.mem_append_left _ (hpk ▸ mem_keys_of_mem hpdel)
        have hfresh' : ∀ n ∈ genNames rest,
            n ∉ dictKeys (dictDel acc kv.1 ++ expandEntry kv.1 0 (seqElems kv.2)) := by
          intro n hn hmem
          rw [keys_append] at hmem
          rcases List.mem_append.mp hmem with h | h
          · exact hfreshall n (Or.inr hn) (keys_dictDel_subset acc kv.1 h)
          · exact hdisj n hn h
        have IH := foldl_expandStep_struct rest
          (dictDel acc kv.1 ++ expandEntry kv.1 0 (seqElems kv.2))
          hsub' hkeys' hfresh' hnd2
        rw [IH, List.filter_append]
        have hese : (expandEntry kv.1 0 (seqElems kv.2)).filter
            (fun p => !List.elem p.1 (seqKeys rest)) = expandEntry kv.1 0 (seqElems kv.2) := by
          apply List.filter_eq_self.mpr
          intro p hp
          have hnm : p.1 ∉ seqKeys rest := by
            intro hmem
            have h1 : p.1 ∈ dictKeys rest := seqKeys_subset_keys rest hmem
            rcases exists_of_mem_keys h1 with ⟨q, hq, hqk⟩
            have h2 : p.1 ∈ dictKeys acc := hqk ▸ hsubt q hq
            exact hfreshall p.1 (Or.inl (List.mem_map_of_mem _ hp)) h2
          simpa using hnm
        have hfuse : (dictDel acc kv.1).filter (fun p => !List.elem p.1 (seqKeys rest))
            = acc.filter (fun p => !List.elem p.1 (seqKeys (kv :: rest))) := by
          rw [dictDel, List.filter_filter]
          apply List.filter_congr
          intro p _
          rw [hsk]
          by_cases hc : p.1 = kv.1
          · simp [hc]
          · simp [hc]
        rw [hese, hfuse, hge, List.append_assoc]

/-- One `expand_lists` pass on a key-unique dict with collision-free
generated names: the non-sequence entries survive in order, followed by all
generated entries. -/
theorem expand_lists_struct (m : Dict)
    (hkeys : (dictKeys m).Nodup)
    (hfresh : ∀ n ∈ genNames m, n ∉ dictKeys m)
    (hnd : (genNames m).Nodup) :
    expand_lists m = keepEntries m ++ genEntries m := by
  have h := foldl_expandStep_struct m m (fun kv hkv => mem_keys_of_mem hkv)
    hkeys hfresh hnd
  rw [expand_lists, h]
  congr 1
  apply List.filter_congr
  intro p hp
  cases hs : isSeq p.2
  · have hnm : p.1 ∉ seqKeys m := by
      intro hmem
      rcases List.mem_map.mp hmem with ⟨q, hq, hqk⟩
      have hqm := List.mem_filter.mp hq
      have heq : q = p := eq_of_mem_nodup_keys hkeys hqm.1 hp hqk
      rw [heq] at hqm
      rw [hs] at hqm
      exact Bool.false_ne_true hqm.2
    simpa using hnm
  · have hmem : p.1 ∈ seqKeys m :=
      List.mem_map_of_mem _ (List.mem_filter.mpr ⟨hp, hs⟩)
    simpa using hmem

/-- The generated entry for index `i` is a member of its block. -/
theorem mem_expandEntry (k : String) :
    ∀ (j : Nat) (xs : List PyVal) (i : Nat) (h : i < xs.length),
      (genName k (j + i), xs.get ⟨i, h⟩) ∈ expandEntry k j xs
  | _, [], _, h => absurd h (Nat.not_lt_zero _)
  | j, x :: xs, 0, _ => by
      rw [Nat.add_zero]
      exact List.mem_cons_self ..
  | j, x :: xs, i + 1, h => by
      have hmem := mem_expandEntry k (j + 1) xs i (Nat.lt_of_succ_lt_succ h)
      have harith : j + (i + 1) = (j + 1) + i := by omega
      rw [harith]
      exact List.mem_cons_of_mem _ hmem

/-- The surviving entries of a key-unique dict keep unique keys. -/
theorem keys_keepEntries_nodup {m : Dict} (h : (dictKeys m).Nodup) :
    (dictKeys (keepEntries m)).Nodup :=
  h.sublist (List.Sublist.map Prod.fst (List.filter_sublist m))

/-- C7 counterexample: in `{a: [1], a_0: 5}` the generated name `a_0`
collides with the existing non-sequence field `a_0`, which is overwritten
by the first sequence element instead of passing through unchanged. -/
theorem expand_lists_collision_cex :
    List.lookup "a_0"
        (expand_lists [("a", PyVal.list [PyVal.int 1]), ("a_0", PyVal.int 5)])
      ≠ some (PyVal.int 5) :=
  fun h => absurd (congrArg pyOptInt h) (by decide)

/-- C7 (amended): for every key-unique field mapping containing a
sequence-valued field `(base, v)` of length `L`, provided the generated
names of the mapping are pairwise distinct and collide with no existing
key, `expand_lists` produces exactly the keys `base_0 .. base_{L-1}` bound
to the sequence's elements in original order, removes `base`, leaves every
non-sequence field unchanged, and the result's key list is the surviving
keys followed by all generated names. -/
theorem expand_lists_seq_field (m pre post : Dict) (base : String) (v : PyVal)
    (hsplit : m = pre ++ (base, v) :: post)
    (hseq : isSeq v = true)
    (hkeys : (dictKeys m).Nodup)
    (hfreshb : (genNames m).all (fun n => !List.elem n (dictKeys m)) = true)
    (hnd : (genNames m).Nodup) :
    (∀ i (hi : i < (seqElems v).length),
        List.lookup (genName base i) (expand_lists m)
          = some ((seqElems v).get ⟨i, hi⟩))
      ∧ List.lookup base (expand_lists m) = none
      ∧ (∀ k w, (k, w) ∈ m → isSeq w = false →
          List.lookup k (expand_lists m) = some w)
      ∧ dictKeys (expand_lists m) = dictKeys (keepEntries m) ++ genNames m := by
  have hfresh : ∀ n ∈ genNames m, n ∉ dictKeys m := by
    intro n hn
    have := List.all_eq_true.mp hfreshb n hn
    simpa using this
  have hstruct := expand_lists_struct m hkeys hfresh hnd
  have hmem : (base, v) ∈ m := by
    rw [hsplit]
    exact List.mem_append_right _ (List.mem_cons_self ..)
  have hbasek : base ∈ dictKeys m := mem_keys_of_mem hmem
  have hgnsplit : genNames m
      = genNames pre
        ++ ((expandEntry base 0 (seqElems v)).map Prod.fst ++ genNames post) := by
    rw [hsplit, genNames, List.flatMap_append, List.flatMap_cons, if_pos hseq]
    rfl
  have hgesplit : genEntries m
      = genEntries pre ++ (expandEntry base 0 (seqElems v) ++ genEntries post) := by
    rw [hsplit, genEntries, List.flatMap_append, List.flatMap_cons, if_pos hseq]
    rfl
  have hndsplit : (genNames pre
      ++ ((expandEntry base 0 (seqElems v)).map Prod.fst ++ genNames post)).Nodup := by
    rw [← hgnsplit]; exact hnd
  have hkeepm : ∀ p ∈ keepEntries m, p ∈ m := fun p hp => (List.mem_filter.mp hp).1
  refine ⟨?_, ?_, ?_, ?_⟩
  · -- generated entries are found
    intro i hi
    have hmemb : (genName base i, (seqElems v).get ⟨i, hi⟩)
        ∈ expandEntry base 0 (seqElems v) := by
      have h0 := mem_expandEntry base 0 (seqElems v) i hi
      rwa [Nat.zero_add] at h0
    have hname : genName base i ∈ genNames m := by
      rw [hgnsplit]
      exact List.mem_append_right _
        (List.mem_append_left _ (List.mem_map_of_mem _ hmemb))
    have hnamek : genName base i ∉ dictKeys m := hfresh _ hname
    rw [hstruct, lookup_skip _ _ _
      (fun p hp hpk => hnamek (by
        rw [← hpk]
        exact mem_keys_of_mem (hkeepm p hp)))]
    rw [hgesplit, lookup_skip _ _ _ ?_]
    · exact lookup_append_some _ _ _ _
        (lookup_found _ _ _ hndsplit.of_append_right.of_append_left hmemb)
    · intro p hp hpk
      have hpre : p.1 ∈ genNames pre := by
        rw [← keys_genEntries]
        exact mem_keys_of_mem hp
      have hd := (List.nodup_append.mp hndsplit).2.2
      exact hd hpre (by
        rw [hpk]
        exact List.mem_append_left _ (List.mem_map_of_mem _ hmemb))
  · -- the sequence key is gone
    rw [hstruct]
    rw [lookup_skip _ _ _ ?_]
    · apply lookup_none
      intro p hp hpk
      have : p.1 ∈ genNames m := by
        rw [← keys_genEntries]
        exact mem_keys_of_mem hp
      exact hfresh _ (hpk ▸ this) hbasek
    · intro p hp hpk
      have hpf := List.mem_filter.mp hp
      have hpeq : p = (base, v) := eq_of_mem_nodup_keys hkeys hpf.1 hmem hpk
      rw [hpeq] at hpf
      have : (!isSeq v) = true := hpf.2
      rw [hseq] at this
      exact Bool.false_ne_true this
  · -- non-sequence fields pass through
    intro k w hkw hw
    have hkeep : (k, w) ∈ keepEntries m :=
      List.mem_filter.mpr ⟨hkw, by rw [hw]; rfl⟩
    rw [hstruct]
    exact lookup_append_some _ _ _ _
      (lookup_found _ _ _ (keys_keepEntries_nodup hkeys) hkeep)
  · rw [hstruct, keys_append, keys_genEntries]

theorem expand_lists_seq_field_witness :
    List.lookup "a_0"
        (expand_lists [("a", PyVal.list [PyVal.int 1, PyVal.int 2]),
                       ("b", PyVal.int 5)]) = some (PyVal.int 1)
    ∧ List.lookup "a"
        (expand_lists [("a", PyVal.list [PyVal.int 1, PyVal.int 2]),
                       ("b", PyVal.int 5)]) = none
    ∧ List.lookup "b"
        (expand_lists [("a", PyVal.list [PyVal.int 1, PyVal.int 2]),
                       ("b", PyVal.int 5)]) = some (PyVal.int 5) := by
  have h := expand_lists_seq_field
    [("a", PyVal.list [PyVal.int 1, PyVal.int 2]), ("b", PyVal.int 5)]
    [] [("b", PyVal.int 5)] "a" (PyVal.list [PyVal.int 1, PyVal.int 2])
    rfl rfl (by decide) (by rfl) (by decide)
  exact ⟨h.1 0 (by decide), h.2.1,
    h.2.2.1 "b" (PyVal.int 5) (List.Mem.tail _ (List.Mem.head _)) rfl⟩

/-! ## `zmq.py`: the decode path (claim C2) -/

/-- C2 (code evaluated at the failing input): sending command `"data"`
with the empty parameter mapping puts the parts `DATA` and the text
`{}` on the wire; receiving them yields as contents the six-character
JSON re-serialization `"{}"` of that text — a string value, not the
original parameter mapping.  `recv_message` applies `json.dumps` to the
received payload instead of `json.loads`, contradicting its own docstring
(`:rtype: tuple(string, dict)`) and its caller `monitor`, which indexes
the contents as a dict. -/
theorem recv_send_not_inverse :
    send_message "data" [] = [PyVal.str "DATA", PyVal.str "\x7b\x7d"]
    ∧ recv_message (PyVal.str "DATA") (PyVal.str "\x7b\x7d")
        = (PyVal.str "DATA", PyVal.str "\"\x7b\x7d\"")
    ∧ PyVal.str "\"\x7b\x7d\"" ≠ PyVal.dict [] :=
  ⟨rfl, rfl, fun h => nomatch h⟩

/-! ## `dp2sql.py`: the event path (claim C1) -/

/-- C1 (code evaluated at the failing input): processing a `profile:end`
event for `pnum = 9` at `t = 50` when no row with that `pnum` exists (an
existing but empty `profiles` table) leaves the table empty: the UPDATE
matches zero rows and completes without raising `IntegrityError`, so the
fallback insert of a row with only `pnum` and `end` never runs and no row
is recorded. -/
theorem insert_event_end_before_start :
    insert_event ⟨"profile:end", 50, 0, 9, PyVal.str "up"⟩ (some []) = some []
    := rfl

/-! ## `dp2sql.py`: the data path (claims C5 and C6) -/

/-- If no element satisfies the predicate, `any` is false. -/
theorem any_eq_false_of_all_not {α : Type} (l : List α) (f : α → Bool)
    (h : (l.all fun a => !f a) = true) : l.any f = false := by
  apply Bool.eq_false_iff.mpr
  intro hany
  rcases List.any_eq_true.mp hany with ⟨a, ha, hfa⟩
  have hnot := List.all_eq_true.mp h a ha
  rw [hfa] at hnot
  simp at hnot

/-- Replacing a present table's rows, then looking the table up. -/
theorem lookup_tableSet_self :
    ∀ (db : DB) (n : String) (rows0 rows : List Dict),
      List.lookup n db = some rows0 →
      List.lookup n (tableSet db n rows) = some rows
  | [], _, _, _, h => by simp at h
  | (k, rs) :: db, n, rows0, rows, h => by
      by_cases hc : k = n
      · have hc1 : (k == n) = true := beq_iff_eq.mpr hc
        have hc2 : (n == k) = true := beq_iff_eq.mpr hc.symm
        simp only [tableSet, List.map_cons, if_pos hc1, List.lookup_cons, hc2]
      · have hc1 : (k == n) = false := beq_eq_false_iff_ne.mpr hc
        have hc2 : (n == k) = false := beq_eq_false_iff_ne.mpr (Ne.symm hc)
        simp only [List.lookup_cons, hc2] at h
        simp only [tableSet, List.map_cons]
        rw [if_neg (show ¬((k == n) = true) by rw [hc1]; exact Bool.false_ne_true)]
        simp only [List.lookup_cons, hc2]
        exact lookup_tableSet_self db n rows0 rows h

/-- `insert_data` when the table exists and the timestamp is new. -/
theorem insert_data_fresh {m : DataMsg} {st : PState} {rows : List Dict}
    (htbl : List.lookup m.name st.db = some rows)
    (hnew : (rows.any fun r => hasTimestamp r (timestampOf m)) = false) :
    insert_data m st = ⟨tableSet st.db m.name (rows ++ [newRow m]), st.log⟩ := by
  unfold insert_data
  rw [htbl]
  simp [hnew]

/-- `insert_data` when the table exists and the timestamp is taken. -/
theorem insert_data_dup {m : DataMsg} {st : PState} {rows : List Dict}
    (htbl : List.lookup m.name st.db = some rows)
    (hdup : (rows.any fun r => hasTimestamp r (timestampOf m)) = true) :
    insert_data m st = ⟨st.db, st.log ++ [(m.secs, m.usecs)]⟩ := by
  unfold insert_data
  rw [htbl]
  simp [hdup]

/-- The timestamp test on a freshly built row. -/
theorem hasTimestamp_of_lookup {r : Dict} {ts ts' : Int}
    (h : List.lookup "timestamp" r = some (PyVal.int ts)) :
    hasTimestamp r ts' = (ts == ts') := by
  unfold hasTimestamp
  rw [h]

/-- C5 counterexample: a decoded `DATA` record addressed to a sensor with
no provisioned table leaves the pipeline state — including the log —
completely unchanged: the record is dropped with no report of the
failure. -/
theorem insert_data_unknown_silent_cex :
    insert_data ⟨"nosuch", 10, 0, [("x", PyVal.int 1)]⟩ ⟨[("ctd", [])], []⟩
      = ⟨[("ctd", [])], []⟩ := rfl

/-- C5 (amended): a decoded `DATA` record addressed to a sensor name with
no provisioned table is dropped silently (nothing is written and nothing
is logged), the pipeline does not abort, and any subsequent record is
processed exactly as if the unknown-table record had never arrived. -/
theorem insert_data_unknown_table (m : DataMsg) (st : PState)
    (h : List.lookup m.name st.db = none) :
    insert_data m st = st
      ∧ ∀ m2 : DataMsg, insert_data m2 (insert_data m st) = insert_data m2 st := by
  have h1 : insert_data m st = st := by
    unfold insert_data
    rw [h]
  exact ⟨h1, fun m2 => by rw [h1]⟩

theorem insert_data_unknown_table_witness :
    insert_data ⟨"mmp", 20, 5, [("y", PyVal.int 2)]⟩
        ⟨[("acm", [[("timestamp", PyVal.int 0)]])], [(1, 1)]⟩
      = ⟨[("acm", [[("timestamp", PyVal.int 0)]])], [(1, 1)]⟩ :=
  (insert_data_unknown_table ⟨"mmp", 20, 5, [("y", PyVal.int 2)]⟩
    ⟨[("acm", [[("timestamp", PyVal.int 0)]])], [(1, 1)]⟩ rfl).1

/-- C6: writing two records with identical timestamp to the same
provisioned table persists exactly one row for that timestamp — the first
record's row, never overwritten — while the second write's duplicate-key
failure is logged with the record's `(secs, usecs)`; a third record with a
distinct, fresh timestamp is then accepted normally. -/
theorem insert_data_duplicate_timestamp (st : PState) (m1 m2 m3 : DataMsg)
    (rows0 : List Dict)
    (hname2 : m2.name = m1.name) (hname3 : m3.name = m1.name)
    (htbl : List.lookup m1.name st.db = some rows0)
    (hts2 : timestampOf m2 = timestampOf m1)
    (hts3 : timestampOf m3 ≠ timestampOf m1)
    (hfresh1 : (rows0.all fun r => !hasTimestamp r (timestampOf m1)) = true)
    (hfresh3 : (rows0.all fun r => !hasTimestamp r (timestampOf m3)) = true)
    (hrow1 : List.lookup "timestamp" (newRow m1) = some (PyVal.int (timestampOf m1)))
    (hrow3 : List.lookup "timestamp" (newRow m3) = some (PyVal.int (timestampOf m3))) :
    List.lookup m1.name (insert_data m3 (insert_data m2 (insert_data m1 st))).db
        = some (rows0 ++ [newRow m1, newRow m3])
      ∧ (insert_data m3 (insert_data m2 (insert_data m1 st))).log
          = st.log ++ [(m2.secs, m2.usecs)]
      ∧ ((rows0 ++ [newRow m1, newRow m3]).filter
          fun r => hasTimestamp r (timestampOf m1)).length = 1 := by
  have hany1 : (rows0.any fun r => hasTimestamp r (timestampOf m1)) = false :=
    any_eq_false_of_all_not rows0 _ hfresh1
  have e1 : insert_data m1 st
      = ⟨tableSet st.db m1.name (rows0 ++ [newRow m1]), st.log⟩ :=
    insert_data_fresh htbl hany1
  have l1 : List.lookup m1.name (insert_data m1 st).db
      = some (rows0 ++ [newRow m1]) := by
    rw [e1]
    exact lookup_tableSet_self st.db m1.name rows0 _ htbl
  have hdup2 : ((rows0 ++ [newRow m1]).any
      fun r => hasTimestamp r (timestampOf m2)) = true := by
    rw [hts2, List.any_append]
    apply Bool.or_eq_true_iff.mpr
    right
    simp [hasTimestamp_of_lookup hrow1]
  have l1' : List.lookup m2.name (insert_data m1 st).db
      = some (rows0 ++ [newRow m1]) := by
    rw [hname2]
    exact l1
  have e2 : insert_data m2 (insert_data m1 st)
      = ⟨(insert_data m1 st).db,
         (insert_data m1 st).log ++ [(m2.secs, m2.usecs)]⟩ :=
    insert_data_dup l1' hdup2
  have hany3 : ((rows0 ++ [newRow m1]).any
      fun r => hasTimestamp r (timestampOf m3)) = false := by
    rw [List.any_append]
    apply Bool.or_eq_false_iff.mpr
    refine ⟨any_eq_false_of_all_not rows0 _ hfresh3, ?_⟩
    simp [hasTimestamp_of_lookup hrow1,
      beq_eq_false_iff_ne.mpr fun he => hts3 he.symm]
  have l2 : List.lookup m3.name (insert_data m2 (insert_data m1 st)).db
      = some (rows0 ++ [newRow m1]) := by
    rw [hname3, e2]
    exact l1
  have e3 : insert_data m3 (insert_data m2 (insert_data m1 st))
      = ⟨tableSet (insert_data m2 (insert_data m1 st)).db m3.name
           ((rows0 ++ [newRow m1]) ++ [newRow m3]),
         (insert_data m2 (insert_data m1 st)).log⟩ :=
    insert_data_fresh l2 hany3
  refine ⟨?_, ?_, ?_⟩
  · rw [e3, ← hname3]
    show List.lookup m3.name (tableSet (insert_data m2 (insert_data m1 st)).db
        m3.name ((rows0 ++ [newRow m1]) ++ [newRow m3])) = _
    rw [lookup_tableSet_self (insert_data m2 (insert_data m1 st)).db
      m3.name (rows0 ++ [newRow m1]) ((rows0 ++ [newRow m1]) ++ [newRow m3]) l2]
    rw [List.append_assoc]
    exact rfl
  · rw [e3]
    show (insert_data m2 (insert_data m1 st)).log = _
    rw [e2]
    show (insert_data m1 st).log ++ _ = _
    rw [e1]
  · rw [List.filter_append]
    have h0 : (rows0.filter fun r => hasTimestamp r (timestampOf m1)) = [] := by
      apply List.filter_eq_nil_iff.mpr
      intro a ha hpa
      have := List.all_eq_true.mp hfresh1 a ha
      rw [hpa] at this
      simp at this
    rw [h0]
    simp [List.filter_cons, hasTimestamp_of_lookup hrow1,
      hasTimestamp_of_lookup hrow3, beq_eq_false_iff_ne.mpr hts3]

theorem insert_data_duplicate_timestamp_witness :
    List.lookup "ctd"
        (insert_data ⟨"ctd", 3, 0, [("x", PyVal.int 9)]⟩
          (insert_data ⟨"ctd", 2, 0, [("x", PyVal.int 7)]⟩
            (insert_data ⟨"ctd", 2, 0, [("x", PyVal.int 5)]⟩
              ⟨[("ctd", [])], []⟩))).db
      = some [[("x", PyVal.int 5), ("timestamp", PyVal.int 2000000)],
              [("x", PyVal.int 9), ("timestamp", PyVal.int 3000000)]]
    ∧ (insert_data ⟨"ctd", 3, 0, [("x", PyVal.int 9)]⟩
        (insert_data ⟨"ctd", 2, 0, [("x", PyVal.int 7)]⟩
          (insert_data ⟨"ctd", 2, 0, [("x", PyVal.int 5)]⟩
            ⟨[("ctd", [])], []⟩))).log = [(2, 0)] := by
  have h := insert_data_duplicate_timestamp ⟨[("ctd", [])], []⟩
    ⟨"ctd", 2, 0, [("x", PyVal.int 5)]⟩ ⟨"ctd", 2, 0, [("x", PyVal.int 7)]⟩
    ⟨"ctd", 3, 0, [("x", PyVal.int 9)]⟩ [] rfl rfl rfl rfl (by decide)
    rfl rfl rfl rfl
  exact ⟨h.1, h.2.1⟩

/-! ## `sql.py`: `make_table` (claims C8 and C10) -/

/-- C10 (code evaluated at the failing inputs): a descriptor configuring
`tostr` without a `precision` entry breaks the per-descriptor precision
rule.  Placed first, `make_table` dies with a `NameError` (the `precision`
local is read before any assignment); placed after a descriptor with
precision `'2'`, the `tostr` descriptor's metadata row records the stale
`'2'` instead of its own default `'1'`. -/
theorem make_table_precision_bug :
    make_table "s" [("s", [⟨"v", none, true, none, none, none⟩])]
      = Except.error MkErr.nameError
    ∧ make_table "s" [("s", [⟨"u", some "2", false, none, none, none⟩,
                             ⟨"v", none, true, none, none, none⟩])]
      = Except.ok
          ([("timestamp", ColType.integer), ("u", ColType.float),
            ("v", ColType.text)],
           [⟨"s", "u", "", "2", PyVal.float "1.0"⟩,
            ⟨"s", "v", "", "2", PyVal.float "1.0"⟩]) :=
  ⟨rfl, rfl⟩

/-- C8 counterexample: for a sensor whose configuration contains the
descriptor `{name: "v", nvals: 3}` that also configures `tostr` without a
`precision` entry (as its first descriptor), `make_table` raises
`NameError` and creates no columns and no metadata rows at all, instead of
the claimed three. -/
theorem make_table_multiplicity_cex :
    make_table "s" [("s", [⟨"v", none, true, some 3, none, none⟩])]
      = Except.error MkErr.nameError := rfl

/-- Under well-formedness, one loop iteration appends the descriptor's
columns and metadata rows and assigns its precision. -/
theorem processDesc_wf (sensor : String) (st : MkState) (d : VarDesc)
    (hwf : descWF d = true) :
    processDesc sensor st d
      = Except.ok ⟨st.cols ++ descCols d, st.metadata ++ descMeta sensor d,
                   some (descPrec d)⟩ := by
  have hprec : descPrecAfter d st.prec = some (descPrec d) := by
    unfold descPrecAfter descPrec
    cases hp : d.precision
    · have ht : d.tostr = false := by
        unfold descWF at hwf
        rw [hp] at hwf
        simpa using hwf
      rw [ht]
      simp
    · simp
  simp only [processDesc, hprec]
  cases hne : (descColNames d).isEmpty
  · simp only [Bool.false_eq_true, if_false]
    rfl
  · have hnil : descColNames d = [] := by
      rwa [← List.isEmpty_iff]
    simp [hnil, descCols, descMeta]
    rfl

/-- Folding the well-formed loop accumulates every descriptor's columns
and metadata rows. -/
theorem foldlM_processDesc_wf (sensor : String) :
    ∀ (descs : List VarDesc) (st : MkState), descs.all descWF = true →
      ∃ prec, descs.foldlM (processDesc sensor) st
        = Except.ok ⟨st.cols ++ descs.flatMap descCols,
                     st.metadata ++ descs.flatMap (descMeta sensor), prec⟩
  | [], st, _ => ⟨st.prec, by
      simp only [List.flatMap_nil, List.append_nil]
      rfl⟩
  | d :: descs, st, h => by
      have hd : descWF d = true := List.all_eq_true.mp h d (List.mem_cons_self ..)
      have ht : descs.all descWF = true := by
        rw [List.all_eq_true]
        exact fun x hx => List.all_eq_true.mp h x (List.mem_cons_of_mem _ hx)
      rcases foldlM_processDesc_wf sensor descs
          ⟨st.cols ++ descCols d, st.metadata ++ descMeta sensor d,
           some (descPrec d)⟩ ht
        with ⟨prec, hrec⟩
      refine ⟨prec, ?_⟩
      rw [List.foldlM_cons, processDesc_wf sensor st d hd]
      show descs.foldlM (processDesc sensor) _ = _
      rw [hrec]
      simp [List.flatMap_cons, List.append_assoc]

/-- `make_table` on a well-formed configuration: the unique `timestamp`
column followed by every descriptor's columns, plus every descriptor's
metadata rows. -/
theorem make_table_wf (sensor : String) (dd : List (String × List VarDesc))
    (descs : List VarDesc) (hdd : List.lookup sensor dd = some descs)
    (hwf : descs.all descWF = true) :
    make_table sensor dd
      = Except.ok (("timestamp", ColType.integer) :: descs.flatMap descCols,
                   descs.flatMap (descMeta sensor)) := by
  rcases foldlM_processDesc_wf sensor descs
      ⟨[("timestamp", ColType.integer)], [], none⟩ hwf with ⟨prec, hrec⟩
  simp only [make_table, hdd]
  rw [hrec]
  rfl

/-- Filtering an association-style list by a key that occurs exactly once
keeps exactly the matching element. -/
theorem filter_key_nodup {α β : Type} [BEq α] [LawfulBEq α] (f : β → α) :
    ∀ (l : List β) (k : α) (v : β), (l.map f).Nodup → v ∈ l → f v = k →
      l.filter (fun c => f c == k) = [v]
  | [], _, _, _, hm, _ => absurd hm (List.not_mem_nil _)
  | b :: l, k, v, hnd, hm, hfv => by
      have hnd' : (f b :: l.map f).Nodup := hnd
      rcases List.mem_cons.mp hm with he | hm'
      · subst he
        rw [List.filter_cons, if_pos (by rw [hfv]; simp)]
        have hnil : l.filter (fun c => f c == k) = [] := by
          apply List.filter_eq_nil_iff.mpr
          intro a ha hpa
          have hak : f a = k := beq_iff_eq.mp hpa
          exact (List.nodup_cons.mp hnd').1
            (by rw [hfv, ← hak]; exact List.mem_map_of_mem f ha)
        rw [hnil]
      · have hk : k ∈ l.map f := by
          rw [← hfv]
          exact List.mem_map_of_mem f hm'
        have hne : (f b == k) = false :=
          beq_eq_false_iff_ne.mpr fun he => (List.nodup_cons.mp hnd').1 (he ▸ hk)
        rw [List.filter_cons, if_neg (by rw [hne]; exact Bool.false_ne_true)]
        exact filter_key_nodup f l k v (List.nodup_cons.mp hnd').2 hm' hfv

theorem map_fst_descCols (d : VarDesc) :
    (descCols d).map Prod.fst = descColNames d := by
  unfold descCols
  rw [List.map_map]
  exact List.map_id _

theorem map_varname_descMeta (sensor : String) (d : VarDesc) :
    (descMeta sensor d).map MetaRow.varname = descColNames d := by
  unfold descMeta
  rw [List.map_map]
  exact List.map_id _

theorem map_fst_flatMap_descCols (descs : List VarDesc) :
    (descs.flatMap descCols).map Prod.fst = allColNames descs := by
  rw [List.map_flatMap]
  simp only [map_fst_descCols]
  rfl

theorem map_varname_flatMap_descMeta (sensor : String) (descs : List VarDesc) :
    (descs.flatMap (descMeta sensor)).map MetaRow.varname = allColNames descs := by
  rw [List.map_flatMap]
  simp only [map_varname_descMeta]
  rfl

/-- The column names of a descriptor with multiplicity `N > 1`. -/
theorem descColNames_nvals {d : VarDesc} {N : Nat} (hnv : d.nvals = some N)
    (hN : 1 < N) : descColNames d = (List.range N).map (genName d.name) := by
  unfold descColNames
  rw [hnv]
  simp only [Option.getD_some]
  rw [if_neg (by simp only [beq_iff_eq]; omega)]

/-- C8 (amended): for a sensor configuration in which every descriptor
either has a `precision` entry or does not configure `tostr` (so
`make_table` completes), whose generated physical column names are
pairwise distinct and avoid `timestamp`, a member descriptor with
`nvals = N > 1` yields exactly the `N` physical columns
`name_0 .. name_{N-1}` — each occurring exactly once, all of the same
column type — and exactly `N` metadata rows, one per physical column, all
sharing the descriptor's sensor, units, precision and scale. -/
theorem make_table_multiplicity (sensor : String)
    (dd : List (String × List VarDesc)) (descs pre post : List VarDesc)
    (d : VarDesc) (N : Nat)
    (hdd : List.lookup sensor dd = some descs)
    (hsplit : descs = pre ++ d :: post)
    (hwf : descs.all descWF = true)
    (hnv : d.nvals = some N) (hN : 1 < N)
    (hnodup : (allColNames descs).Nodup)
    (hts : "timestamp" ∉ allColNames descs) :
    make_table sensor dd
      = Except.ok (("timestamp", ColType.integer) :: descs.flatMap descCols,
                   descs.flatMap (descMeta sensor))
    ∧ descCols d = (List.range N).map (fun i => (genName d.name i, descCType d))
    ∧ descMeta sensor d = (List.range N).map (fun i =>
        { sensor := sensor, varname := genName d.name i,
          units := d.units.getD "", precision := descPrec d,
          scale := d.scale.getD (PyVal.float "1.0") })
    ∧ ∀ i, i < N →
        ((("timestamp", ColType.integer) :: descs.flatMap descCols).filter
            fun c => c.1 == genName d.name i)
          = [(genName d.name i, descCType d)]
        ∧ ((descs.flatMap (descMeta sensor)).filter
            fun r => r.varname == genName d.name i)
          = [{ sensor := sensor, varname := genName d.name i,
               units := d.units.getD "", precision := descPrec d,
               scale := d.scale.getD (PyVal.float "1.0") }] := by
  have hnames := descColNames_nvals hnv hN
  have hcols : descCols d
      = (List.range N).map fun i => (genName d.name i, descCType d) := by
    unfold descCols
    rw [hnames, List.map_map]
    rfl
  have hmeta : descMeta sensor d = (List.range N).map fun i =>
      ({ sensor := sensor, varname := genName d.name i,
         units := d.units.getD "", precision := descPrec d,
         scale := d.scale.getD (PyVal.float "1.0") } : MetaRow) := by
    unfold descMeta
    rw [hnames, List.map_map]
    rfl
  refine ⟨make_table_wf sensor dd descs hdd hwf, hcols, hmeta, ?_⟩
  intro i hi
  have hmemName : genName d.name i ∈ descColNames d := by
    rw [hnames]
    exact List.mem_map_of_mem _ (List.mem_range.mpr hi)
  have hmemAll : genName d.name i ∈ allColNames descs := by
    rw [hsplit]
    unfold allColNames
    rw [List.flatMap_append, List.flatMap_cons]
    exact List.mem_append_right _ (List.mem_append_left _ hmemName)
  have hneTs : ("timestamp" == genName d.name i) = false :=
    beq_eq_false_iff_ne.mpr fun he => hts (by rw [he]; exact hmemAll)
  constructor
  · rw [List.filter_cons, if_neg (by rw [hneTs]; exact Bool.false_ne_true)]
    apply filter_key_nodup Prod.fst
    · rw [map_fst_flatMap_descCols]
      exact hnodup
    · rw [hsplit, List.flatMap_append, List.flatMap_cons]
      refine List.mem_append_right _ (List.mem_append_left _ ?_)
      rw [hcols]
      exact List.mem_map_of_mem _ (List.mem_range.mpr hi)
    · rfl
  · apply filter_key_nodup MetaRow.varname
    · rw [map_varname_flatMap_descMeta]
      exact hnodup
    · rw [hsplit, List.flatMap_append, List.flatMap_cons]
      refine List.mem_append_right _ (List.mem_append_left _ ?_)
      rw [hmeta]
      exact List.mem_map_of_mem _ (List.mem_range.mpr hi)
    · rfl

theorem make_table_multiplicity_witness :
    make_table "s" [("s", [⟨"v", some "0.01", false, some 3, some "m", none⟩])]
      = Except.ok
          ([("timestamp", ColType.integer), ("v_0", ColType.float),
            ("v_1", ColType.float), ("v_2", ColType.float)],
           [⟨"s", "v_0", "m", "0.01", PyVal.float "1.0"⟩,
            ⟨"s", "v_1", "m", "0.01", PyVal.float "1.0"⟩,
            ⟨"s", "v_2", "m", "0.01", PyVal.float "1.0"⟩])
    ∧ ([("timestamp", ColType.integer), ("v_0", ColType.float),
        ("v_1", ColType.float), ("v_2", ColType.float)].filter
          fun c => c.1 == "v_0") = [("v_0", ColType.float)] := by
  have h := make_table_multiplicity "s"
    [("s", [⟨"v", some "0.01", false, some 3, some "m", none⟩])]
    [⟨"v", some "0.01", false, some 3, some "m", none⟩] [] []
    ⟨"v", some "0.01", false, some 3, some "m", none⟩ 3
    rfl rfl rfl rfl (by omega) (by decide) (by decide)
  exact ⟨h.1, ((h.2.2.2 0 (by omega)).1 : _)⟩

end DpData
